import Mathlib

/-!
Verification of the syllabus PDF parser (`pdf_parser.js` and companion scripts).

The layout reconstructor (`pdfToText`), the field extractors
(`extractTAOfficeHours`, `extractGradingPolicy`) and the regex-based section
extractors (`extractSection`, `extractSectionWithBoundaries`, `processPdf`)
are embedded as executable Lean functions over `List Char`, translated
directly from the JavaScript source.  JavaScript regular expressions are
modelled by small backtracking matchers that follow the engine's scan order.
All character classes are modelled on their ASCII fragment, which covers
every input the repository manipulates.
-/

namespace PdfTester

/-- A positioned text run: `str` is the run's text (`block.str` in the source)
and `x`, `y` are the origin components `block.transform[4]` and
`block.transform[5]`. -/
structure Run where
  str : List Char
  x : Int
  y : Int
deriving DecidableEq, Repr

/-- ASCII fragment of the JavaScript whitespace class used by `\s` and `trim`. -/
def jsWS (c : Char) : Bool :=
  c = ' ' || c = '\t' || c = '\n' || c = '\r' || c = '\x0B' || c = '\x0C'

/-- Model of JavaScript `String.prototype.trim` on ASCII text. -/
def jsTrim (cs : List Char) : List Char :=
  ((cs.dropWhile jsWS).reverse.dropWhile jsWS).reverse

/-- Whether the run text ends in a space character.  The source tests
`lastBlock.str[lastBlock.str.length - 1] !== ' '`; on an empty string the
indexing gives `undefined`, which also differs from `' '`, so the empty
string counts as not ending in a space. -/
def endsWithSpace (s : List Char) : Bool :=
  match s.getLast? with
  | some c => c = ' '
  | none => false

/-- The test `/^\s?[a-zA-Z]$/.test(str)`: one ASCII letter optionally
preceded by one whitespace character. -/
def isBareLetter (s : List Char) : Bool :=
  match s with
  | [c] => c.isAlpha
  | [w, c] => jsWS w && c.isAlpha
  | _ => false

/-- The separator `pdfToText` appends before run `b` when the previously
emitted run is `lb` (`lastBlock` in the source). -/
def sepFor (lb : Option Run) (b : Run) : List Char :=
  match lb with
  | none => []
  | some p =>
    if endsWithSpace p.str then []
    else if b.x < p.x then ['\r', '\n']
    else if p.y ≠ b.y ∧ isBareLetter p.str = false then [' ']
    else []

/-- The inner loop of `pdfToText`: linearize the runs of one page, threading
the `lastBlock` cursor. -/
def pageToTextAux : Option Run → List Run → List Char
  | _, [] => []
  | lb, b :: rest => sepFor lb b ++ b.str ++ pageToTextAux (some b) rest

/-- Per-page linearization (one iteration of the page loop of `pdfToText`). -/
def pageToText (blocks : List Run) : List Char :=
  pageToTextAux none blocks

/-- Whole-document linearization: `fullText += pageText + "\n\n"` over the
pages in ascending page order. -/
def pdfToText (pages : List (List Run)) : List Char :=
  pages.foldl (fun acc p => acc ++ pageToText p ++ ['\n', '\n']) []

/-- The value of the `lastBlock` cursor after scanning `xs`, starting from
`lb`. -/
def lastRun (lb : Option Run) : List Run → Option Run
  | [] => lb
  | b :: rest => lastRun (some b) rest

lemma pageToTextAux_append (lb : Option Run) (xs ys : List Run) :
    pageToTextAux lb (xs ++ ys) =
      pageToTextAux lb xs ++ pageToTextAux (lastRun lb xs) ys := by
  induction xs generalizing lb with
  | nil => simp [pageToTextAux, lastRun]
  | cons b rest ih => simp [pageToTextAux, lastRun, ih, List.append_assoc]

lemma pdfToText_acc (a : List Char) (pages : List (List Run)) :
    pages.foldl (fun acc p => acc ++ pageToText p ++ ['\n', '\n']) a =
      a ++ pdfToText pages := by
  induction pages generalizing a with
  | nil => simp [pdfToText]
  | cons p rest ih =>
      simp only [pdfToText, List.foldl_cons] at *
      rw [ih, ih (([] : List Char) ++ pageToText p ++ ['\n', '\n'])]
      simp [List.append_assoc]

/-- C9: the reconstructor's output preserves page order — page `k`'s
linearized text precedes page `k+1`'s, with two newline characters appended
after each page as the separator; a page with zero runs contributes only the
separator. -/
theorem page_order_invariant :
    (∀ (p : List Run) (rest : List (List Run)),
        pdfToText (p :: rest) = pageToText p ++ ['\n', '\n'] ++ pdfToText rest) ∧
    pageToText [] = [] ∧
    (∀ rest : List (List Run), pdfToText ([] :: rest) = ['\n', '\n'] ++ pdfToText rest) := by
  refine ⟨?_, rfl, ?_⟩
  · intro p rest
    show List.foldl _ _ _ = _
    rw [List.foldl_cons, pdfToText_acc]
    simp only [List.nil_append, List.append_assoc]
  · intro rest
    show List.foldl _ _ _ = _
    rw [List.foldl_cons, pdfToText_acc]
    simp only [pageToText, pageToTextAux, List.nil_append, List.append_assoc]

/-- C1: whenever the previous run's text does not end in a space and the
current run's x-origin is strictly smaller than the previous run's x-origin,
the pair `"\r\n"` is emitted between the two runs' texts, regardless of the
y coordinates and of the previous run's content. -/
theorem newline_rule_emits_crlf (pre : List Run) (prev cur : Run) (rest : List Run)
    (h1 : endsWithSpace prev.str = false) (h2 : cur.x < prev.x) :
    pageToText (pre ++ prev :: cur :: rest) =
      pageToText pre ++ sepFor (lastRun none pre) prev ++ prev.str ++
        ['\r', '\n'] ++ cur.str ++ pageToTextAux (some cur) rest := by
  simp only [pageToText, pageToTextAux_append, pageToTextAux]
  have hsep : sepFor (some prev) cur = ['\r', '\n'] := by
    simp [sepFor, h1, h2]
  rw [hsep]
  simp [List.append_assoc]

theorem newline_rule_emits_crlf_witness :
    endsWithSpace ("Intro".toList) = false ∧
    pageToText [⟨"Intro".toList, 100, 500⟩, ⟨"Body".toList, 50, 480⟩] =
      "Intro\r\nBody".toList := by
  refine ⟨by decide, ?_⟩
  have h := newline_rule_emits_crlf [] ⟨"Intro".toList, 100, 500⟩
    ⟨"Body".toList, 50, 480⟩ [] (by decide) (by decide)
  simp only [List.nil_append] at h
  rw [h]
  decide

/-- C2: when the previous run's text does not end in a space and the
x-origin did not decrease, exactly one space is inserted before the current
run's text if and only if the two runs' y coordinates differ and the previous
run's text is not a bare letter (one ASCII letter optionally preceded by one
whitespace character); otherwise the texts are concatenated directly. -/
theorem word_break_rule (pre : List Run) (prev cur : Run) (rest : List Run)
    (h1 : endsWithSpace prev.str = false) (h2 : ¬ cur.x < prev.x) :
    pageToText (pre ++ prev :: cur :: rest) =
      pageToText pre ++ sepFor (lastRun none pre) prev ++ prev.str ++
        (if prev.y ≠ cur.y ∧ isBareLetter prev.str = false then [' '] else []) ++
        cur.str ++ pageToTextAux (some cur) rest := by
  simp only [pageToText, pageToTextAux_append, pageToTextAux]
  have hsep : sepFor (some prev) cur =
      (if prev.y ≠ cur.y ∧ isBareLetter prev.str = false then [' '] else []) := by
    simp [sepFor, h1, h2]
  rw [hsep]
  simp [List.append_assoc]

theorem word_break_rule_witness :
    (¬ (110 : Int) < 100) ∧
    pageToText [⟨"A".toList, 100, 500⟩, ⟨"pple".toList, 110, 498⟩] = "Apple".toList ∧
    pageToText [⟨"Hello".toList, 100, 500⟩, ⟨"World".toList, 160, 490⟩] =
      "Hello World".toList := by
  refine ⟨by decide, ?_, ?_⟩
  · have h := word_break_rule [] ⟨"A".toList, 100, 500⟩
      ⟨"pple".toList, 110, 498⟩ [] (by decide) (by decide)
    simp only [List.nil_append] at h
    rw [h]
    decide
  · have h := word_break_rule [] ⟨"Hello".toList, 100, 500⟩
      ⟨"World".toList, 160, 490⟩ [] (by decide) (by decide)
    simp only [List.nil_append] at h
    rw [h]
    decide

/-! ## String utilities shared by the extractors -/

/-- Model of JavaScript `String.prototype.indexOf`: index of the first
occurrence of `needle` in `hay`. -/
def firstIdx (needle : List Char) : List Char → Option Nat
  | [] => if needle.isEmpty then some 0 else none
  | c :: rest =>
    if needle.isPrefixOf (c :: rest) then some 0
    else (firstIdx needle rest).map (· + 1)

/-- Case-insensitive prefix test (ASCII lowering), modelling the `i` flag. -/
def ciHasPref : List Char → List Char → Bool
  | [], _ => true
  | _ :: _, [] => false
  | p :: ps, c :: cs => (p.toLower = c.toLower) && ciHasPref ps cs

/-- Case-insensitive first-occurrence search, modelling `String.prototype.search`
with a literal pattern under the `i` flag. -/
def firstIdxCI (needle : List Char) : List Char → Option Nat
  | [] => if needle.isEmpty then some 0 else none
  | c :: rest =>
    if ciHasPref needle (c :: rest) then some 0
    else (firstIdxCI needle rest).map (· + 1)

/-- Model of `hay.indexOf(needle, start)` (absolute index). -/
def firstIdxFrom (needle hay : List Char) (start : Nat) : Option Nat :=
  (firstIdx needle (hay.drop start)).map (· + start)

/-- Model of `String.prototype.split("\n")`. -/
def splitNL : List Char → List (List Char)
  | [] => [[]]
  | c :: rest =>
    if c = '\n' then [] :: splitNL rest
    else
      match splitNL rest with
      | l :: ls => (c :: l) :: ls
      | [] => [[c]]

/-- Model of `Array.prototype.join("\n")`. -/
def joinNL : List (List Char) → List Char
  | [] => []
  | [l] => l
  | l :: ls => l ++ '\n' :: joinNL ls

/-- Whether the regex `\r?\n\r?\n` matches at the head of `cs`. -/
def blankAt (cs : List Char) : Bool :=
  match cs with
  | '\n' :: '\n' :: _ => true
  | '\n' :: '\r' :: '\n' :: _ => true
  | '\r' :: '\n' :: '\n' :: _ => true
  | '\r' :: '\n' :: '\r' :: '\n' :: _ => true
  | _ => false

/-- Index of the first match of `\r?\n\r?\n` in `cs`, or `cs.length` when
there is none — exactly how the source uses `sub.search(/\r?\n\r?\n/)`
followed by the `endIdx === -1` fixup. -/
def blankIdx : List Char → Nat
  | [] => 0
  | c :: rest => if blankAt (c :: rest) then 0 else blankIdx rest + 1

/-! ## TA office hours (`extractTAOfficeHours`) -/

def ohMarker : List Char := "Office Hours:".toList

def taMarker : List Char := "TA Info:".toList

def notFoundOH : List Char := "TA office hours not found.".toList

/-- `sub.substring(0, sub.indexOf("\n"))` with the `-1 → undefined` fixup:
the current line of `sub`. -/
def lineTo (sub : List Char) : List Char :=
  match firstIdx ['\n'] sub with
  | some e => sub.take e
  | none => sub

/-- `extractTAOfficeHours` from `pdf_parser.js`: primary marker
`"Office Hours:"`, secondary marker `"TA Info:"`, capture to the end of the
current line, trimmed; sentinel when both markers are absent. -/
def extractTAOfficeHours (t : List Char) : List Char :=
  match firstIdx ohMarker t with
  | some i => jsTrim (lineTo (t.drop (i + ohMarker.length)))
  | none =>
    match firstIdx taMarker t with
    | some i => jsTrim (lineTo (t.drop (i + taMarker.length)))
    | none => notFoundOH

/-! ## Grading policy (`extractGradingPolicy`, second variant in
`pdf_parser.js`) -/

def gwMarker : List Char := "Grade Weighting".toList

def notFoundGrading : List Char := "Grading policy not found.".toList

def gradingMarkers : List (List Char) :=
  ["Graded Work".toList, "Grading Policies:".toList,
   "Grading Policy:".toList, "Grading:".toList]

/-- One fallback marker's captured span: from after the marker to the first
blank line (`/\r?\n\r?\n/`) or the end of the text, trimmed. -/
def markerSpan (t m : List Char) : Option (List Char) :=
  match firstIdx m t with
  | none => none
  | some i =>
    let sub := t.drop (i + m.length)
    some (jsTrim (sub.take (blankIdx sub)))

/-- The fallback marker loop of `extractGradingPolicy`: first marker whose
trimmed span is non-empty wins; otherwise the sentinel. -/
def fallbackLoop (t : List Char) : List (List Char) → List Char
  | [] => notFoundGrading
  | m :: ms =>
    match markerSpan t m with
    | none => fallbackLoop t ms
    | some r => if r.isEmpty then fallbackLoop t ms else r

/-- `text.substring(idx, idx + 1000)`: the weighting window. -/
def weightWindow (t : List Char) (idx : Nat) : List Char :=
  (t.drop idx).take 1000

/-- The weighting lines: lines of the 1000-character window, trimmed, that
contain a percent sign. -/
def weightLines (t : List Char) (idx : Nat) : List (List Char) :=
  ((splitNL (weightWindow t idx)).map jsTrim).filter (fun l => l.contains '%')

/-- `[A-F]`. -/
def scaleLetter (c : Char) : Bool := 'A' ≤ c && c ≤ 'F'

/-- Length of the longest prefix of `cs` consisting of characters that
satisfy `p`. -/
def maxRun (p : Char → Bool) : List Char → Nat
  | [] => 0
  | c :: rest => if p c then maxRun p rest + 1 else 0

/-- How many characters `[+-]?` consumes at the head of `rest`. -/
def modLenOf (rest : List Char) : Nat :=
  match rest with
  | d :: _ => if d = '+' || d = '-' then 1 else 0
  | [] => 0

/-- Length of the match of `/[A-F][+-]?\s+\d+/` at the head of `cs`, or `0`
when there is no match.  The character classes are disjoint, so the
backtracking regex engine behaves deterministically here. -/
def scalePrefixLen (cs : List Char) : Nat :=
  match cs with
  | [] => 0
  | c :: rest =>
    if scaleLetter c then
      let rest2 := rest.drop (modLenOf rest)
      let w := maxRun jsWS rest2
      if w = 0 then 0
      else
        let d := maxRun Char.isDigit (rest2.drop w)
        if d = 0 then 0 else 1 + modLenOf rest + w + d
    else 0

/-- Fuel-driven worker for the `scaleRegex.exec` loop (the fuel only makes
the recursion structural; `scaleScan` always supplies enough). -/
def scaleScanAux : Nat → List Char → Bool → List (List Char)
  | 0, _, _ => []
  | _ + 1, [], _ => []
  | fuel + 1, c :: rest, atStart =>
    let n := scalePrefixLen (c :: rest)
    if atStart = true ∧ 0 < n then
      jsTrim ((c :: rest).take n) :: scaleScanAux fuel ((c :: rest).drop n) false
    else
      scaleScanAux fuel rest (c = '\n' || c = '\r')

/-- The `scaleRegex.exec` loop over `/^[A-F][+-]?\s+\d+/gm`: collect, in scan
order, each match found at a line start (`atStart`), pushing `match[0].trim()`
and resuming the scan just after the match (a match always ends in a digit,
so the resume position is never a line start). -/
def scaleScan (cs : List Char) (atStart : Bool) : List (List Char) :=
  scaleScanAux cs.length cs atStart

lemma scaleScanAux_fuel : ∀ (f1 : Nat) (cs : List Char) (b : Bool) (f2 : Nat),
    cs.length ≤ f1 → cs.length ≤ f2 → scaleScanAux f1 cs b = scaleScanAux f2 cs b := by
  intro f1
  induction f1 with
  | zero =>
      intro cs b f2 h1 h2
      have : cs = [] := List.length_eq_zero.1 (Nat.le_zero.1 h1)
      subst this
      cases f2 <;> rfl
  | succ g1 ih =>
      intro cs b f2 h1 h2
      cases cs with
      | nil => cases f2 <;> rfl
      | cons c rest =>
          cases f2 with
          | zero => simp at h2
          | succ g2 =>
              show (if b = true ∧ 0 < scalePrefixLen (c :: rest) then _ else _) =
                (if b = true ∧ 0 < scalePrefixLen (c :: rest) then _ else _)
              by_cases hcond : b = true ∧ 0 < scalePrefixLen (c :: rest)
              · rw [if_pos hcond, if_pos hcond]
                congr 1
                apply ih
                · simp only [List.length_drop, List.length_cons]
                  simp only [List.length_cons] at h1
                  omega
                · simp only [List.length_drop, List.length_cons]
                  simp only [List.length_cons] at h2
                  have := hcond.2
                  omega
              · rw [if_neg hcond, if_neg hcond]
                apply ih
                · simp only [List.length_cons] at h1
                  omega
                · simp only [List.length_cons] at h2
                  omega

lemma scaleScan_cons_eq (c : Char) (rest : List Char) (b : Bool) :
    scaleScan (c :: rest) b =
      if b = true ∧ 0 < scalePrefixLen (c :: rest) then
        jsTrim ((c :: rest).take (scalePrefixLen (c :: rest))) ::
          scaleScan ((c :: rest).drop (scalePrefixLen (c :: rest))) false
      else
        scaleScan rest (c = '\n' || c = '\r') := by
  show scaleScanAux (rest.length + 1) (c :: rest) b = _
  by_cases hcond : b = true ∧ 0 < scalePrefixLen (c :: rest)
  · rw [if_pos hcond]
    show (if b = true ∧ 0 < scalePrefixLen (c :: rest) then _ else _) = _
    rw [if_pos hcond]
    congr 1
    apply scaleScanAux_fuel
    · simp only [List.length_drop, List.length_cons]
      omega
    · exact le_rfl
  · rw [if_neg hcond]
    show (if b = true ∧ 0 < scalePrefixLen (c :: rest) then _ else _) = _
    rw [if_neg hcond]
    apply scaleScanAux_fuel
    · omega
    · exact le_rfl

/-- The `"grade letter"` window: 500 characters from the case-insensitive
marker, when the marker occurs. -/
def scaleWindowA (t : List Char) : Option (List Char) :=
  (firstIdxCI "grade letter".toList t).map (fun li => (t.drop li).take 500)

/-- The `"Grading Scale"` window: 500 characters from
`text.indexOf("Grading Scale", idx)`, when that occurrence exists. -/
def scaleWindowB (t : List Char) (idx : Nat) : Option (List Char) :=
  (firstIdxFrom "Grading Scale".toList t idx).map (fun si => (t.drop si).take 500)

/-- The letter-grade scale lines: scan the `"grade letter"` window; if that
yields nothing (marker absent or no matches), scan the `"Grading Scale"`
window instead. -/
def scaleLinesOf (t : List Char) (idx : Nat) : List (List Char) :=
  let s1 :=
    match scaleWindowA t with
    | some w => scaleScan w true
    | none => []
  if s1.isEmpty then
    match scaleWindowB t idx with
    | some w => scaleScan w true
    | none => []
  else s1

/-- `extractGradingPolicy` from `pdf_parser.js` (the weighting/scale
variant): with the `"Grade Weighting"` marker present, emit the percent
lines of the 1000-character window and the letter-grade lines of the scale
window; otherwise run the fallback marker loop. -/
def extractGradingPolicy (t : List Char) : List Char :=
  match firstIdx gwMarker t with
  | none => fallbackLoop t gradingMarkers
  | some idx =>
    let w := weightLines t idx
    let s := scaleLinesOf t idx
    if w.isEmpty && s.isEmpty then notFoundGrading
    else
      (if w.isEmpty then [] else joinNL w) ++
        (if s.isEmpty then [] else "\n\nGrading Scale:\n".toList ++ joinNL s)

/-! ## OCR fallback decision (`processPdf`) -/

/-- The trigger `!pdfText.trim() || pdfText.trim().startsWith("%PDF")`. -/
def needsOCR (t : List Char) : Bool :=
  (jsTrim t).isEmpty || "%PDF".toList.isPrefixOf (jsTrim t)

/-- The pipeline's choice between the reconstructed text and the OCR text. -/
def choosePdfText (t ocr : List Char) : List Char :=
  if needsOCR t then ocr else t

/-! ## The regex section extractors (`test_pdf_parser.js`)

`extractSection` builds `new RegExp(heading + "\\s*[:\\n]+\\s*(.*?)(?=\\n[A-Z][a-z]|$)", "i")`
and `extractSectionWithBoundaries` the variant whose lookahead is
`(?=\nB1|\nB2|...|$)`.  Both are modelled by a backtracking matcher that
follows the JavaScript engine's order: leftmost start position first; at a
fixed start, greedy `\s*` and `[:\n]+` (longest first) and a lazy capture
(shortest first, never crossing a newline, since `.` does not match line
terminators).  The heading and the boundaries are interpolated literally;
every heading and boundary the repository uses is free of regex
metacharacters.  Under the `i` flag `[A-Z][a-z]` accepts any two ASCII
letters. -/

/-- `[:\n]`. -/
def isColonNL (c : Char) : Bool := c = ':' || c = '\n'

/-- `[hi, hi - 1, ..., lo]` (empty when `hi < lo`): the order in which a
greedy subexpression cedes characters while backtracking. -/
def downFrom (hi lo : Nat) : List Nat :=
  (List.range (hi + 1 - lo)).map (fun t => hi - t)

/-- The lazy capture `(.*?)` followed by a lookahead: take the shortest
prefix of non-newline characters after which `look` holds. -/
def lazyCap (look : List Char → Bool) : List Char → Option (List Char)
  | [] => if look [] then some [] else none
  | c :: rest =>
    if look (c :: rest) then some []
    else if c = '\n' then none
    else (lazyCap look rest).map (fun l => c :: l)

/-- Match `\s*[:\n]+\s*(.*?)(?=look)` against `cs`, returning the capture of
the first successful alternative in the engine's backtracking order. -/
def sectionTailGen (look : List Char → Bool) (cs : List Char) : Option (List Char) :=
  (downFrom (maxRun jsWS cs) 0).findSome? fun j =>
    let cs1 := cs.drop j
    (downFrom (maxRun isColonNL cs1) 1).findSome? fun m =>
      let cs2 := cs1.drop m
      (downFrom (maxRun jsWS cs2) 0).findSome? fun j2 =>
        lazyCap look (cs2.drop j2)

/-- Case-insensitive literal match of the heading at the current position,
returning the remainder of the text. -/
def matchHeadingCI : List Char → List Char → Option (List Char)
  | [], cs => some cs
  | _ :: _, [] => none
  | p :: ps, c :: cs =>
    if p.toLower = c.toLower then matchHeadingCI ps cs else none

/-- Scan the text left to right for the first position where the whole
pattern (heading, separator, capture, lookahead) matches. -/
def findMatchGen (look : List Char → Bool) (pat : List Char) : List Char → Option (List Char)
  | [] => (matchHeadingCI pat []).bind (sectionTailGen look)
  | c :: rest =>
    match (matchHeadingCI pat (c :: rest)).bind (sectionTailGen look) with
    | some r => some r
    | none => findMatchGen look pat rest

/-- The lookahead `(?=\n[A-Z][a-z]|$)` of `extractSection` (under the `i`
flag the two classes accept any ASCII letter). -/
def lookHeading (cs : List Char) : Bool :=
  match cs with
  | [] => true
  | '\n' :: a :: b :: _ => a.isAlpha && b.isAlpha
  | _ => false

/-- The lookahead `(?=\nB1|\nB2|...|$)` of `extractSectionWithBoundaries`. -/
def lookBounds (bs : List (List Char)) (cs : List Char) : Bool :=
  cs.isEmpty || bs.any (fun b => ciHasPref ('\n' :: b) cs)

/-- `extractSection(text, sectionHeading)`: `null` becomes `none`, a match
becomes `some` of the trimmed capture. -/
def extractSection (t heading : List Char) : Option (List Char) :=
  (findMatchGen lookHeading heading t).map jsTrim

/-- `extractSectionWithBoundaries(text, startHeading, endBoundaries)`. -/
def extractSectionWithBoundaries (t heading : List Char) (bs : List (List Char)) :
    Option (List Char) :=
  (findMatchGen (lookBounds bs) heading t).map jsTrim

/-- `extractSectionMultiple`: first heading whose extraction is truthy (a
non-empty string) wins; JavaScript treats both `null` and `""` as falsy. -/
def extractSectionMultiple (t : List Char) : List (List Char) → Option (List Char)
  | [] => none
  | h :: hs =>
    match extractSection t h with
    | some s => if s.isEmpty then extractSectionMultiple t hs else some s
    | none => extractSectionMultiple t hs

/-- The heading loop of `processPdf` for a field with boundaries: the first
truthy `extractSectionWithBoundaries` result. -/
def boundedFieldLoop (t : List Char) (bs : List (List Char)) :
    List (List Char) → Option (List Char)
  | [] => none
  | h :: hs =>
    match extractSectionWithBoundaries t h bs with
    | some s => if s.isEmpty then boundedFieldLoop t bs hs else some s
    | none => boundedFieldLoop t bs hs

/-- A `processPdf` field with boundaries: try the boundary extractor over
the candidate headings, and when nothing truthy is found fall back to
`extractSectionMultiple`. -/
def boundedField (t : List Char) (hs bs : List (List Char)) : Option (List Char) :=
  match boundedFieldLoop t bs hs with
  | some s => some s
  | none => extractSectionMultiple t hs

/-! ## Claims C5, C7, C8 -/

lemma lineTo_eq_takeWhile (sub : List Char) :
    lineTo sub = sub.takeWhile (fun c => c != '\n') := by
  induction sub with
  | nil => rfl
  | cons c rest ih =>
      by_cases hc : c = '\n'
      · subst hc
        simp [lineTo, firstIdx, List.isPrefixOf, List.takeWhile]
      · have hpre : (['\n'] : List Char).isPrefixOf (c :: rest) = false := by
          simp [List.isPrefixOf]
          exact fun h => (hc h.symm).elim
        have hcb : (c != '\n') = true := by
          simp [bne_iff_ne]
          exact hc
        have hstep : firstIdx ['\n'] (c :: rest) = (firstIdx ['\n'] rest).map (· + 1) := by
          simp [firstIdx, hpre]
        cases h : firstIdx ['\n'] rest with
        | none =>
            have h1 : lineTo (c :: rest) = c :: rest := by
              simp [lineTo, hstep, h]
            have h2 : rest.takeWhile (fun c => c != '\n') = rest := by
              have h3 := ih
              simp [lineTo, h] at h3
              exact h3.symm
            rw [h1, List.takeWhile_cons, if_pos hcb, h2]
        | some e =>
            have h1 : lineTo (c :: rest) = c :: rest.take e := by
              simp [lineTo, hstep, h, List.take_succ_cons]
            have h2 : rest.take e = rest.takeWhile (fun c => c != '\n') := by
              have h3 := ih
              simp [lineTo, h] at h3
              exact h3
            rw [h1, List.takeWhile_cons, if_pos hcb, h2]

/-- C5: the office-hours extraction looks for the primary marker
`"Office Hours:"`, consults `"TA Info:"` only when the primary is absent
from the whole text, and in either case captures only from after the marker
to the end of the current line, trimmed; when both markers are absent it
returns the sentinel. -/
theorem office_hours_markers (t : List Char) :
    (∀ i, firstIdx ohMarker t = some i →
        extractTAOfficeHours t =
          jsTrim ((t.drop (i + ohMarker.length)).takeWhile (fun c => c != '\n'))) ∧
    (firstIdx ohMarker t = none →
      ∀ i, firstIdx taMarker t = some i →
        extractTAOfficeHours t =
          jsTrim ((t.drop (i + taMarker.length)).takeWhile (fun c => c != '\n'))) ∧
    (firstIdx ohMarker t = none → firstIdx taMarker t = none →
        extractTAOfficeHours t = notFoundOH) := by
  refine ⟨?_, ?_, ?_⟩
  · intro i hi
    simp [extractTAOfficeHours, hi, lineTo_eq_takeWhile]
  · intro h0 i hi
    simp [extractTAOfficeHours, h0, hi, lineTo_eq_takeWhile]
  · intro h0 h1
    simp [extractTAOfficeHours, h0, h1]

theorem office_hours_markers_witness :
    firstIdx ohMarker ("Staff\nTA Info: Tue 2-4pm\nRoom 5".toList) = none ∧
    extractTAOfficeHours ("Staff\nTA Info: Tue 2-4pm\nRoom 5".toList) =
      "Tue 2-4pm".toList := by
  refine ⟨by decide, ?_⟩
  have h := (office_hours_markers ("Staff\nTA Info: Tue 2-4pm\nRoom 5".toList)).2.1
    (by decide) 6 (by decide)
  rw [h]
  decide

lemma fallbackLoop_sentinel (t : List Char) (ms : List (List Char))
    (h : ∀ m ∈ ms, firstIdx m t = none) :
    fallbackLoop t ms = notFoundGrading := by
  induction ms with
  | nil => rfl
  | cons m rest ih =>
      have hm := h m (List.mem_cons_self m rest)
      simp only [fallbackLoop, markerSpan, hm]
      exact ih fun x hx => h x (List.mem_cons_of_mem m hx)

/-- C7: field extraction is total — each extractor is a plain function on
text, so it always resolves to a string — and on a text containing none of
the grading markers the grading field is the sentinel
`"Grading policy not found."`; likewise the office-hours field yields its
sentinel when both of its markers are absent. -/
theorem extraction_sentinel_on_absence (t : List Char) :
    ((firstIdx gwMarker t = none ∧ ∀ m ∈ gradingMarkers, firstIdx m t = none) →
        extractGradingPolicy t = notFoundGrading) ∧
    ((firstIdx ohMarker t = none ∧ firstIdx taMarker t = none) →
        extractTAOfficeHours t = notFoundOH) := by
  constructor
  · rintro ⟨hg, hm⟩
    simp only [extractGradingPolicy, hg]
    exact fallbackLoop_sentinel t gradingMarkers hm
  · rintro ⟨h0, h1⟩
    simp [extractTAOfficeHours, h0, h1]

theorem extraction_sentinel_on_absence_witness :
    extractGradingPolicy ("hello world".toList) = notFoundGrading ∧
    extractTAOfficeHours ("hello world".toList) = notFoundOH :=
  ⟨(extraction_sentinel_on_absence ("hello world".toList)).1
      ⟨by decide, by decide⟩,
   (extraction_sentinel_on_absence ("hello world".toList)).2
      ⟨by decide, by decide⟩⟩

lemma jsTrim_nil_iff (t : List Char) :
    jsTrim t = [] ↔ ∀ c ∈ t, jsWS c = true := by
  unfold jsTrim
  rw [List.reverse_eq_nil_iff, List.dropWhile_eq_nil_iff]
  constructor
  · intro h c hc
    have hsplit : c ∈ t.takeWhile jsWS ++ t.dropWhile jsWS := by
      rw [List.takeWhile_append_dropWhile]
      exact hc
    rcases List.mem_append.1 hsplit with h1 | h1
    · exact List.mem_takeWhile_imp h1
    · exact h c (List.mem_reverse.2 h1)
  · intro h c hc
    exact h c ((List.dropWhile_sublist jsWS).mem (List.mem_reverse.1 hc))

lemma isPrefixOf_iff_take (p s : List Char) :
    p.isPrefixOf s = true ↔ s.take p.length = p := by
  rw [List.isPrefixOf_iff_prefix, List.prefix_iff_eq_take]
  exact ⟨fun h => h.symm, fun h => h.symm⟩

/-- C8: the OCR fallback is taken if and only if the reconstructed text is
all whitespace (empty after trimming) or its trimmed form begins with the
PDF signature `"%PDF"`; any other text is passed through unchanged. -/
theorem ocr_trigger_iff (t o : List Char) :
    (needsOCR t = true ↔
      ((∀ c ∈ t, jsWS c = true) ∨ (jsTrim t).take 4 = "%PDF".toList)) ∧
    (needsOCR t = false → choosePdfText t o = t) ∧
    (needsOCR t = true → choosePdfText t o = o) := by
  refine ⟨?_, ?_, ?_⟩
  · unfold needsOCR
    rw [Bool.or_eq_true, List.isEmpty_iff, jsTrim_nil_iff, isPrefixOf_iff_take]
    have h4 : ("%PDF".toList).length = 4 := by decide
    rw [h4]
  · intro h
    simp [choosePdfText, h]
  · intro h
    simp [choosePdfText, h]

theorem ocr_trigger_iff_witness :
    needsOCR ("  %PDF-1.4".toList) = true ∧
    choosePdfText ("Hello".toList) ("ocr".toList) = "Hello".toList ∧
    choosePdfText ("  %PDF-1.4".toList) ("ocr".toList) = "ocr".toList :=
  ⟨(ocr_trigger_iff ("  %PDF-1.4".toList) ("ocr".toList)).1.mpr
      (Or.inr (by decide)),
   (ocr_trigger_iff ("Hello".toList) ("ocr".toList)).2.1 (by decide),
   (ocr_trigger_iff ("  %PDF-1.4".toList) ("ocr".toList)).2.2 (by decide)⟩

/-! ## Claims C3 and C4: what the section regexes actually capture

The capture group `(.*?)` of both section regexes is built from `.`, which
does not match line terminators, so a captured span can never contain a
newline; in particular it never extends to the "next blank line". -/

lemma lazyCap_no_nl (look : List Char → Bool) :
    ∀ cs l, lazyCap look cs = some l → '\n' ∉ l := by
  intro cs
  induction cs with
  | nil =>
      intro l h
      unfold lazyCap at h
      by_cases h0 : look [] = true
      · rw [if_pos h0] at h
        cases h
        simp
      · rw [if_neg h0] at h
        cases h
  | cons c rest ih =>
      intro l h
      unfold lazyCap at h
      by_cases h0 : look (c :: rest) = true
      · rw [if_pos h0] at h
        cases h
        simp
      · rw [if_neg h0] at h
        by_cases hc : c = '\n'
        · rw [if_pos hc] at h
          cases h
        · rw [if_neg hc] at h
          obtain ⟨l', hl', rfl⟩ := Option.map_eq_some'.1 h
          intro hmem
          rcases List.mem_cons.1 hmem with h1 | h1
          · exact hc h1.symm
          · exact ih l' hl' h1

lemma findSome?_inv {α β : Type} (f : α → Option β) :
    ∀ (l : List α) (r : β), l.findSome? f = some r → ∃ x ∈ l, f x = some r := by
  intro l
  induction l with
  | nil => intro r h; simp [List.findSome?] at h
  | cons a as ih =>
      intro r h
      rw [List.findSome?_cons] at h
      cases hfa : f a with
      | some b =>
          rw [hfa] at h
          exact ⟨a, List.mem_cons_self a as, by rw [hfa]; exact h⟩
      | none =>
          rw [hfa] at h
          obtain ⟨x, hx, hfx⟩ := ih r h
          exact ⟨x, List.mem_cons_of_mem a hx, hfx⟩

lemma sectionTailGen_no_nl (look : List Char → Bool) (cs l : List Char)
    (h : sectionTailGen look cs = some l) : '\n' ∉ l := by
  unfold sectionTailGen at h
  obtain ⟨j, _, h⟩ := findSome?_inv _ _ _ h
  obtain ⟨m, _, h⟩ := findSome?_inv _ _ _ h
  obtain ⟨j2, _, h⟩ := findSome?_inv _ _ _ h
  exact lazyCap_no_nl look _ l h

lemma findMatchGen_no_nl (look : List Char → Bool) (pat : List Char) :
    ∀ t l, findMatchGen look pat t = some l → '\n' ∉ l := by
  intro t
  induction t with
  | nil =>
      intro l h
      unfold findMatchGen at h
      obtain ⟨cs, _, h2⟩ := Option.bind_eq_some.1 h
      exact sectionTailGen_no_nl look cs l h2
  | cons c rest ih =>
      intro l h
      unfold findMatchGen at h
      cases hm : (matchHeadingCI pat (c :: rest)).bind (sectionTailGen look) with
      | some r =>
          rw [hm] at h
          obtain ⟨cs, _, h2⟩ := Option.bind_eq_some.1 hm
          cases h
          exact sectionTailGen_no_nl look cs l h2
      | none =>
          rw [hm] at h
          exact ih l h

/-- The trimmed text is an infix of the original text. -/
lemma jsTrim_within (l : List Char) : jsTrim l <:+: l := by
  refine ⟨l.takeWhile jsWS, ((l.dropWhile jsWS).reverse.takeWhile jsWS).reverse, ?_⟩
  unfold jsTrim
  rw [List.append_assoc, ← List.reverse_append, List.takeWhile_append_dropWhile,
    List.reverse_reverse, List.takeWhile_append_dropWhile]

lemma mem_of_mem_jsTrim {a : Char} {l : List Char} (h : a ∈ jsTrim l) : a ∈ l :=
  (jsTrim_within l).mem h

lemma blankIdx_spec (cs : List Char) :
    (∀ j, j < blankIdx cs → blankAt (cs.drop j) = false) ∧
    (blankIdx cs = cs.length ∨ blankAt (cs.drop (blankIdx cs)) = true) := by
  induction cs with
  | nil =>
      refine ⟨fun j hj => ?_, Or.inl rfl⟩
      simp [blankIdx] at hj
  | cons c rest ih =>
      by_cases hb : blankAt (c :: rest) = true
      · refine ⟨fun j hj => ?_, Or.inr ?_⟩
        · simp [blankIdx, hb] at hj
        · simp [blankIdx, hb]
      · have hb' : blankAt (c :: rest) = false := by
          simpa using hb
        have hidx : blankIdx (c :: rest) = blankIdx rest + 1 := by
          simp [blankIdx, hb']
        refine ⟨fun j hj => ?_, ?_⟩
        · rw [hidx] at hj
          cases j with
          | zero => simpa using hb'
          | succ j' =>
              have := ih.1 j' (by omega)
              simpa [List.drop_succ_cons] using this
        · cases ih.2 with
          | inl h => left; simp [hidx, h]
          | inr h => right; simpa [hidx, List.drop_succ_cons] using h

/-- C3 (counterexample): the claim predicts that the span captured for the
boundary-less heading `"Homework:"` runs to the next blank line, i.e.
`"Late work penalty\nNo exceptions"`; the code stops the capture at the
first newline that is followed by two letters and returns
`"Late work penalty"`. -/
theorem section_blank_line_counterexample :
    extractSection ("Homework:\nLate work penalty\nNo exceptions\n\nGrading".toList)
        ("Homework:".toList) = some ("Late work penalty".toList) ∧
    extractSectionMultiple ("Homework:\nLate work penalty\nNo exceptions\n\nGrading".toList)
        ["Homework:".toList] = some ("Late work penalty".toList) ∧
    ("Late work penalty".toList ≠ "Late work penalty\nNo exceptions".toList) :=
  ⟨by decide, by decide, by decide⟩

/-- C3 (amended): a span captured by `extractSection` (heading without
boundaries) never contains a newline — the capture cannot cross a line, so
it never runs to the next blank line; the blank-line-or-end rule holds only
for the grading fallback markers, whose span runs from after the marker to
the position `blankIdx` of the first `\r?\n\r?\n` match (or the end of the
text when there is none), trimmed. -/
theorem section_span_rules :
    (∀ t h s, extractSection t h = some s → '\n' ∉ s) ∧
    (∀ t hs s, extractSectionMultiple t hs = some s → '\n' ∉ s) ∧
    (∀ t m i, firstIdx m t = some i →
      markerSpan t m =
        some (jsTrim ((t.drop (i + m.length)).take (blankIdx (t.drop (i + m.length))))) ∧
      (∀ j, j < blankIdx (t.drop (i + m.length)) →
        blankAt ((t.drop (i + m.length)).drop j) = false) ∧
      (blankIdx (t.drop (i + m.length)) = (t.drop (i + m.length)).length ∨
        blankAt ((t.drop (i + m.length)).drop (blankIdx (t.drop (i + m.length)))) = true)) := by
  have hsec : ∀ t h s, extractSection t h = some s → '\n' ∉ s := by
    intro t h s hx
    unfold extractSection at hx
    obtain ⟨raw, hraw, rfl⟩ := Option.map_eq_some'.1 hx
    intro hmem
    exact findMatchGen_no_nl lookHeading h t raw hraw (mem_of_mem_jsTrim hmem)
  refine ⟨hsec, ?_, ?_⟩
  · intro t hs
    induction hs with
    | nil => intro s h; simp [extractSectionMultiple] at h
    | cons hd tl ih =>
        intro s h
        unfold extractSectionMultiple at h
        cases hx : extractSection t hd with
        | some r =>
            rw [hx] at h
            have h2 : (if r.isEmpty = true then extractSectionMultiple t tl else some r) =
                some s := h
            by_cases hr : r.isEmpty = true
            · rw [if_pos hr] at h2
              exact ih s h2
            · rw [if_neg hr] at h2
              cases h2
              exact hsec t hd s hx
        | none =>
            rw [hx] at h
            exact ih s h
  · intro t m i hi
    refine ⟨by simp [markerSpan, hi], (blankIdx_spec _).1, (blankIdx_spec _).2⟩

theorem section_span_rules_witness :
    extractSection ("Homework:\nLate work penalty\nNo exceptions\n\nGrading".toList)
        ("Homework:".toList) = some ("Late work penalty".toList) ∧
    '\n' ∉ ("Late work penalty".toList) ∧
    firstIdx ("Grading:".toList) ("Grading: A\nB\n\nrest".toList) = some 0 ∧
    markerSpan ("Grading: A\nB\n\nrest".toList) ("Grading:".toList) =
      some ("A\nB".toList) := by
  have h1 : extractSection ("Homework:\nLate work penalty\nNo exceptions\n\nGrading".toList)
      ("Homework:".toList) = some ("Late work penalty".toList) := by decide
  refine ⟨h1, section_span_rules.1 _ _ _ h1, by decide, ?_⟩
  have h2 := (section_span_rules.2.2 ("Grading: A\nB\n\nrest".toList)
    ("Grading:".toList) 0 (by decide)).1
  rw [h2]
  decide

/-- C4 (counterexample): the claim predicts that for heading
`"Graded Work:"` with boundary `"Grading Scale"` the captured span runs up
to the boundary occurrence, i.e. `"Homework 50%\nExams 50%"`; the code's
capture cannot cross a newline, so the boundary regex fails entirely
(`none`) and the `processPdf` fallback returns only the first line
`"Homework 50%"`. -/
theorem boundaries_capture_counterexample :
    extractSectionWithBoundaries
        ("Graded Work:\nHomework 50%\nExams 50%\nGrading Scale\nA 94".toList)
        ("Graded Work:".toList) ["Grading Scale".toList] = none ∧
    boundedField ("Graded Work:\nHomework 50%\nExams 50%\nGrading Scale\nA 94".toList)
        ["Graded Work:".toList] ["Grading Scale".toList] =
      some ("Homework 50%".toList) ∧
    ("Homework 50%".toList ≠ "Homework 50%\nExams 50%".toList) :=
  ⟨by decide, by decide, by decide⟩

/-- C4 (amended): a span captured by `extractSectionWithBoundaries` never
contains a newline — it ends at a newline immediately followed by a
boundary string, or at the end of the text, and so is confined to a single
line; when the boundary regex matches no heading, `processPdf` falls back to
the heading-only extractor `extractSectionMultiple` (whose captures are also
single-line), not to a blank-line rule. -/
theorem boundaries_span_rules :
    (∀ t h bs s, extractSectionWithBoundaries t h bs = some s → '\n' ∉ s) ∧
    (∀ t hs bs, boundedFieldLoop t bs hs = none →
        boundedField t hs bs = extractSectionMultiple t hs) ∧
    (∀ t hs bs s, boundedFieldLoop t bs hs = some s → boundedField t hs bs = some s) := by
  refine ⟨?_, ?_, ?_⟩
  · intro t h bs s hx
    unfold extractSectionWithBoundaries at hx
    obtain ⟨raw, hraw, rfl⟩ := Option.map_eq_some'.1 hx
    intro hmem
    exact findMatchGen_no_nl (lookBounds bs) h t raw hraw (mem_of_mem_jsTrim hmem)
  · intro t hs bs h
    simp [boundedField, h]
  · intro t hs bs s h
    simp [boundedField, h]

theorem boundaries_span_rules_witness :
    extractSectionWithBoundaries
        ("Graded Work\nHomework 55%\nGrading Scale\nA 94".toList)
        ("Graded Work".toList) ["Grading Scale".toList] =
      some ("Homework 55%".toList) ∧
    '\n' ∉ ("Homework 55%".toList) ∧
    boundedFieldLoop ("x".toList) ["Grading Scale".toList] ["Graded Work".toList] = none ∧
    boundedField ("x".toList) ["Graded Work".toList] ["Grading Scale".toList] =
      extractSectionMultiple ("x".toList) ["Graded Work".toList] := by
  have h1 : extractSectionWithBoundaries
      ("Graded Work\nHomework 55%\nGrading Scale\nA 94".toList)
      ("Graded Work".toList) ["Grading Scale".toList] =
      some ("Homework 55%".toList) := by decide
  exact ⟨h1, boundaries_span_rules.1 _ _ _ _ h1, by decide,
    boundaries_span_rules.2.1 ("x".toList) ["Graded Work".toList]
      ["Grading Scale".toList] (by decide)⟩

/-! ## Claim C10: the grading extraction reads only bounded windows -/

lemma scaleScan_within (N : Nat) :
    ∀ cs, cs.length ≤ N → ∀ b l, l ∈ scaleScan cs b → l <:+: cs := by
  induction N with
  | zero =>
      intro cs hcs b l hl
      have hnil : cs = [] := List.length_eq_zero.1 (Nat.le_zero.1 hcs)
      subst hnil
      simp [scaleScan, scaleScanAux] at hl
  | succ n ih =>
      intro cs hcs b l hl
      cases cs with
      | nil => simp [scaleScan, scaleScanAux] at hl
      | cons c rest =>
          rw [scaleScan_cons_eq] at hl
          by_cases hcond : b = true ∧ 0 < scalePrefixLen (c :: rest)
          · rw [if_pos hcond] at hl
            rcases List.mem_cons.1 hl with h1 | h1
            · subst h1
              have hp := List.take_prefix (scalePrefixLen (c :: rest)) (c :: rest)
              exact (jsTrim_within _).trans hp.isInfix
            · have hlen : ((c :: rest).drop (scalePrefixLen (c :: rest))).length ≤ n := by
                simp only [List.length_drop, List.length_cons]
                have := hcond.2
                simp only [List.length_cons] at hcs
                omega
              have hrec := ih _ hlen false l h1
              have hs := List.drop_suffix (scalePrefixLen (c :: rest)) (c :: rest)
              exact hrec.trans hs.isInfix
          · rw [if_neg hcond] at hl
            have hlen : rest.length ≤ n := by
              simp only [List.length_cons] at hcs
              omega
            have hrec := ih rest hlen _ l hl
            have hs : rest <:+ c :: rest := List.suffix_cons c rest
            exact hrec.trans hs.isInfix

/-- C10: with the `"Grade Weighting"` marker present, every weighting line
is a trimmed line of the 1000-character window at the marker, and every
letter-grade scale line lies inside the 500-character window at the
case-insensitive `"grade letter"` marker or inside the 500-character window
at `"Grading Scale"`; nothing outside these windows ever appears. -/
theorem grading_window_bounds (t : List Char) (idx : Nat)
    (_h : firstIdx gwMarker t = some idx) :
    (∀ l ∈ weightLines t idx, ∃ raw ∈ splitNL (weightWindow t idx), l = jsTrim raw) ∧
    (∀ l ∈ scaleLinesOf t idx,
      (∃ w, scaleWindowA t = some w ∧ l <:+: w) ∨
      (∃ w, scaleWindowB t idx = some w ∧ l <:+: w)) := by
  constructor
  · intro l hl
    have hmap : l ∈ (splitNL (weightWindow t idx)).map jsTrim :=
      List.mem_of_mem_filter hl
    obtain ⟨raw, hraw, rfl⟩ := List.mem_map.1 hmap
    exact ⟨raw, hraw, rfl⟩
  · intro l hl
    unfold scaleLinesOf at hl
    cases hA : scaleWindowA t with
    | some w =>
        rw [hA] at hl
        by_cases hempty : (scaleScan w true).isEmpty = true
        · rw [if_pos hempty] at hl
          cases hB : scaleWindowB t idx with
          | some w2 =>
              rw [hB] at hl
              exact Or.inr ⟨w2, rfl, scaleScan_within w2.length w2 le_rfl true l hl⟩
          | none =>
              rw [hB] at hl
              simp at hl
        · rw [if_neg hempty] at hl
          exact Or.inl ⟨w, rfl, scaleScan_within w.length w le_rfl true l hl⟩
    | none =>
        rw [hA] at hl
        rw [if_pos (by rfl)] at hl
        cases hB : scaleWindowB t idx with
        | some w2 =>
            rw [hB] at hl
            exact Or.inr ⟨w2, rfl, scaleScan_within w2.length w2 le_rfl true l hl⟩
        | none =>
            rw [hB] at hl
            simp at hl

theorem grading_window_bounds_witness :
    firstIdx gwMarker
        ("Grade Weighting\nHW 50%\ngrade letter\nA 94\nrandom prose\nB+ 87".toList) =
      some 0 ∧
    (∀ l ∈ scaleLinesOf
        ("Grade Weighting\nHW 50%\ngrade letter\nA 94\nrandom prose\nB+ 87".toList) 0,
      (∃ w, scaleWindowA
          ("Grade Weighting\nHW 50%\ngrade letter\nA 94\nrandom prose\nB+ 87".toList) =
            some w ∧ l <:+: w) ∨
      (∃ w, scaleWindowB
          ("Grade Weighting\nHW 50%\ngrade letter\nA 94\nrandom prose\nB+ 87".toList) 0 =
            some w ∧ l <:+: w)) :=
  ⟨by decide,
   (grading_window_bounds
      ("Grade Weighting\nHW 50%\ngrade letter\nA 94\nrandom prose\nB+ 87".toList) 0
      (by decide)).2⟩

/-! ## Claim C6: structure of the scale-line matches -/

lemma maxRun_le_length (p : Char → Bool) : ∀ l : List Char, maxRun p l ≤ l.length := by
  intro l
  induction l with
  | nil => simp [maxRun]
  | cons c rest ih =>
      by_cases hc : p c = true
      · simp only [maxRun, hc, if_true, List.length_cons]
        omega
      · simp [maxRun, hc]

lemma maxRun_append (p : Char → Bool) (a b : List Char) :
    maxRun p (a ++ b) =
      if a.all p then a.length + maxRun p b else maxRun p a := by
  induction a with
  | nil => simp [maxRun]
  | cons c rest ih =>
      by_cases hc : p c = true
      · have h1 : maxRun p (c :: rest ++ b) = maxRun p (rest ++ b) + 1 := by
          simp [maxRun, hc]
        have h2 : maxRun p (c :: rest) = maxRun p rest + 1 := by
          simp [maxRun, hc]
        rw [h1, h2, ih, List.all_cons, hc, Bool.true_and, List.length_cons]
        by_cases hall : rest.all p = true
        · rw [if_pos hall, if_pos hall]
          omega
        · rw [if_neg hall, if_neg hall]
      · have h1 : maxRun p (c :: (rest ++ b)) = 0 := by simp [maxRun, hc]
        have h2 : maxRun p (c :: rest) = 0 := by simp [maxRun, hc]
        have h3 : (c :: rest).all p = false := by simp [List.all_cons, hc]
        rw [List.cons_append, h1, h3]
        simp [h2]

lemma take_maxRun_all (p : Char → Bool) :
    ∀ l : List Char, ∀ x ∈ l.take (maxRun p l), p x = true := by
  intro l
  induction l with
  | nil => simp [maxRun]
  | cons c rest ih =>
      by_cases hc : p c = true
      · simp only [maxRun, hc, if_pos, List.take_succ_cons]
        intro x hx
        rcases List.mem_cons.1 hx with h1 | h1
        · subst h1; exact hc
        · exact ih x h1
      · simp [maxRun, hc]

lemma maxRun_stop (p : Char → Bool) :
    ∀ l : List Char, ∀ x, (l.drop (maxRun p l)).head? = some x → p x = false := by
  intro l
  induction l with
  | nil => simp [maxRun]
  | cons c rest ih =>
      by_cases hc : p c = true
      · simp only [maxRun, hc, if_pos, List.drop_succ_cons]
        exact ih
      · simp only [maxRun, hc, if_neg, Bool.false_eq_true, List.drop_zero, List.head?_cons]
        intro x hx
        cases hx
        simpa using hc

lemma maxRun_exact (p : Char → Bool) (a b : List Char)
    (ha : ∀ x ∈ a, p x = true) (hb : ∀ x, b.head? = some x → p x = false) :
    maxRun p (a ++ b) = a.length := by
  have hall : a.all p = true := List.all_eq_true.2 ha
  rw [maxRun_append, if_pos hall]
  have hzero : maxRun p b = 0 := by
    cases b with
    | nil => simp [maxRun]
    | cons x rest =>
        have := hb x rfl
        simp [maxRun, this]
  omega

lemma maxRun_all_eq_length (p : Char → Bool) (l : List Char) (h : l.all p = true) :
    maxRun p l = l.length := by
  have := maxRun_exact p l [] (List.all_eq_true.1 h) (by intro x hx; cases hx)
  simpa using this

lemma scaleLetter_not_ws (c : Char) (h : scaleLetter c = true) : jsWS c = false := by
  simp only [scaleLetter, Bool.and_eq_true, decide_eq_true_eq] at h
  simp only [jsWS, Bool.or_eq_false_iff, decide_eq_false_iff_not]
  refine ⟨⟨⟨⟨⟨?_, ?_⟩, ?_⟩, ?_⟩, ?_⟩, ?_⟩ <;> rintro rfl <;> revert h <;> decide

lemma digit_not_ws (c : Char) (h : c.isDigit = true) : jsWS c = false := by
  simp only [Char.isDigit, Bool.and_eq_true, decide_eq_true_eq] at h
  simp only [jsWS, Bool.or_eq_false_iff, decide_eq_false_iff_not]
  refine ⟨⟨⟨⟨⟨?_, ?_⟩, ?_⟩, ?_⟩, ?_⟩, ?_⟩ <;> rintro rfl <;> revert h <;> decide

lemma ws_not_sign (c : Char) (h : jsWS c = true) : (c = '+' || c = '-') = false := by
  simp only [jsWS, Bool.or_eq_true, decide_eq_true_eq] at h
  simp only [Bool.or_eq_false_iff, decide_eq_false_iff_not]
  rcases h with ((((h | h) | h) | h) | h) | h <;> subst h <;> exact ⟨by decide, by decide⟩

lemma jsTrim_eq_self (l : List Char)
    (h1 : ∀ c, l.head? = some c → jsWS c = false)
    (h2 : ∀ c, l.getLast? = some c → jsWS c = false) : jsTrim l = l := by
  unfold jsTrim
  have hd : l.dropWhile jsWS = l := by
    cases l with
    | nil => rfl
    | cons a as =>
        rw [List.dropWhile_cons, if_neg]
        simp [h1 a rfl]
  rw [hd]
  have hd2 : l.reverse.dropWhile jsWS = l.reverse := by
    cases hr : l.reverse with
    | nil => rfl
    | cons a as =>
        rw [List.dropWhile_cons, if_neg]
        have : l.getLast? = some a := by
          rw [← List.head?_reverse, hr, List.head?_cons]
        simp [h2 a this]
  rw [hd2, List.reverse_reverse]

lemma mem_of_getLast?_eq {l : List Char} {a : Char} (h : l.getLast? = some a) : a ∈ l := by
  obtain ⟨hne, rfl⟩ := List.mem_getLast?_eq_getLast (l := l) (x := a) h
  exact List.getLast_mem hne

/-- Structural decomposition of a successful `/[A-F][+-]?\s+\d+/` match. -/
lemma scale_structure (cs : List Char) (n : Nat)
    (hn : scalePrefixLen cs = n) (hpos : 0 < n) :
    ∃ c mods ws ds rest,
      cs = c :: (mods ++ ws ++ ds ++ rest) ∧
      n = 1 + mods.length + ws.length + ds.length ∧
      scaleLetter c = true ∧
      (mods = [] ∨ ∃ d, mods = [d] ∧ (d = '+' || d = '-') = true) ∧
      (∀ x ∈ ws, jsWS x = true) ∧ ws ≠ [] ∧
      (∀ x ∈ ds, x.isDigit = true) ∧ ds ≠ [] ∧
      (∀ x, rest.head? = some x → x.isDigit = false) := by
  cases cs with
  | nil => simp [scalePrefixLen] at hn; omega
  | cons c rest0 =>
      by_cases hletter : scaleLetter c = true
      · have hn' := hn
        simp only [scalePrefixLen, hletter, if_pos] at hn'
        set rest2 := rest0.drop (modLenOf rest0) with hrest2
        set w := maxRun jsWS rest2 with hw
        by_cases hw0 : w = 0
        · rw [if_pos hw0] at hn'
          omega
        · rw [if_neg hw0] at hn'
          set d := maxRun Char.isDigit (rest2.drop w) with hd
          by_cases hd0 : d = 0
          · rw [if_pos hd0] at hn'
            omega
          · rw [if_neg hd0] at hn'
            refine ⟨c, rest0.take (modLenOf rest0), rest2.take w, (rest2.drop w).take d,
              (rest2.drop w).drop d, ?_, ?_, hletter, ?_, ?_, ?_, ?_, ?_, ?_⟩
            · rw [List.append_assoc, List.append_assoc] at *
              rw [List.take_append_drop, List.take_append_drop, List.take_append_drop]
            · have hmlen : (rest0.take (modLenOf rest0)).length = modLenOf rest0 := by
                cases rest0 with
                | nil => simp [modLenOf]
                | cons x xs =>
                    simp only [modLenOf]
                    by_cases hx : (x = '+' || x = '-') = true
                    · rw [if_pos hx]; simp
                    · rw [if_neg hx]; simp
              have hwlen : (rest2.take w).length = w := by
                rw [List.length_take]
                exact Nat.min_eq_left (hw ▸ maxRun_le_length jsWS rest2)
              have hdlen : ((rest2.drop w).take d).length = d := by
                rw [List.length_take]
                exact Nat.min_eq_left (hd ▸ maxRun_le_length Char.isDigit (rest2.drop w))
              rw [hmlen, hwlen, hdlen]
              omega
            · cases rest0 with
              | nil => left; simp [modLenOf]
              | cons x xs =>
                  simp only [modLenOf]
                  by_cases hx : (x = '+' || x = '-') = true
                  · right
                    exact ⟨x, by rw [if_pos hx]; simp, hx⟩
                  · left
                    rw [if_neg hx]
                    simp
            · exact hw ▸ take_maxRun_all jsWS rest2
            · intro hcontra
              have : (rest2.take w).length = 0 := by rw [hcontra]; rfl
              rw [List.length_take] at this
              have hle := hw ▸ maxRun_le_length jsWS rest2
              omega
            · exact hd ▸ take_maxRun_all Char.isDigit (rest2.drop w)
            · intro hcontra
              have : ((rest2.drop w).take d).length = 0 := by rw [hcontra]; rfl
              rw [List.length_take] at this
              have hle := hd ▸ maxRun_le_length Char.isDigit (rest2.drop w)
              omega
            · exact hd ▸ maxRun_stop Char.isDigit (rest2.drop w)
      · simp [scalePrefixLen, hletter] at hn
        omega

/-- Evaluation of `scalePrefixLen` on an explicitly decomposed match. -/
lemma scale_eval (c : Char) (mods ws ds rest : List Char)
    (hc : scaleLetter c = true)
    (hmods : mods = [] ∨ ∃ d, mods = [d] ∧ (d = '+' || d = '-') = true)
    (hws : ∀ x ∈ ws, jsWS x = true) (hws0 : ws ≠ [])
    (hds : ∀ x ∈ ds, x.isDigit = true) (hds0 : ds ≠ [])
    (hrest : ∀ x, rest.head? = some x → x.isDigit = false) :
    scalePrefixLen (c :: (mods ++ ws ++ ds ++ rest)) =
      1 + mods.length + ws.length + ds.length := by
  obtain ⟨u, us, hu⟩ : ∃ u us, ws = u :: us := by
    cases ws with
    | nil => exact (hws0 rfl).elim
    | cons u us => exact ⟨u, us, rfl⟩
  have hmod : modLenOf (mods ++ ws ++ ds ++ rest) = mods.length := by
    rcases hmods with hmods | ⟨d, hd, hsign⟩
    · subst hmods
      subst hu
      simp only [List.nil_append, List.cons_append, modLenOf]
      rw [if_neg]
      · rfl
      · simp [ws_not_sign u (hws u (List.mem_cons_self u us))]
    · subst hd
      simp only [List.cons_append, List.nil_append, modLenOf, hsign, if_pos, List.length_cons,
        List.length_nil]
  have hdrop : (mods ++ ws ++ ds ++ rest).drop mods.length = ws ++ ds ++ rest := by
    rw [List.append_assoc, List.append_assoc, List.drop_left]
    rw [List.append_assoc]
  have hwrun : maxRun jsWS (ws ++ ds ++ rest) = ws.length := by
    rw [List.append_assoc]
    refine maxRun_exact jsWS ws (ds ++ rest) hws ?_
    intro x hx
    obtain ⟨v, vs, hv⟩ : ∃ v vs, ds = v :: vs := by
      cases ds with
      | nil => exact (hds0 rfl).elim
      | cons v vs => exact ⟨v, vs, rfl⟩
    subst hv
    simp only [List.cons_append, List.head?_cons] at hx
    cases hx
    exact digit_not_ws x (hds x (by simp))
  have hdrun : maxRun Char.isDigit (ds ++ rest) = ds.length :=
    maxRun_exact Char.isDigit ds rest hds hrest
  simp only [scalePrefixLen, hc, if_pos, hmod, hdrop, hwrun]
  rw [if_neg]
  · have hdrop2 : (ws ++ ds ++ rest).drop ws.length = ds ++ rest := by
      rw [List.append_assoc, List.drop_left]
    rw [hdrop2, hdrun, if_neg]
    intro hcontra
    have : ds = [] := List.length_eq_zero.1 hcontra
    exact hds0 this
  · intro hcontra
    have : ws = [] := List.length_eq_zero.1 hcontra
    exact hws0 this

lemma scale_take_eval (cs : List Char) (n : Nat)
    (hn : scalePrefixLen cs = n) (hpos : 0 < n) :
    (cs.take n).length = n ∧ scalePrefixLen (cs.take n) = n ∧
      jsTrim (cs.take n) = cs.take n := by
  obtain ⟨c, mods, ws, ds, rest, hcs, hlen, hc, hmods, hws, hws0, hds, hds0, hrest⟩ :=
    scale_structure cs n hn hpos
  have htake : cs.take n = c :: (mods ++ ws ++ ds) := by
    rw [hcs, hlen]
    have h1 : 1 + mods.length + ws.length + ds.length =
        (mods.length + ws.length + ds.length) + 1 := by omega
    rw [h1, List.take_succ_cons]
    congr 1
    have h2 : mods ++ ws ++ ds ++ rest = (mods ++ ws ++ ds) ++ rest := by
      simp [List.append_assoc]
    rw [h2, List.take_left' (by simp only [List.length_append])]
  have hlast : ∀ x, (c :: (mods ++ ws ++ ds)).getLast? = some x → x.isDigit = true := by
    intro x hx
    rw [show c :: (mods ++ ws ++ ds) = (c :: (mods ++ ws)) ++ ds by simp,
      List.getLast?_append_of_ne_nil _ hds0] at hx
    exact hds x (mem_of_getLast?_eq hx)
  refine ⟨?_, ?_, ?_⟩
  · rw [htake]
    simp only [List.length_cons, List.length_append]
    omega
  · rw [htake]
    have := scale_eval c mods ws ds [] hc hmods hws hws0 hds hds0
      (by intro x hx; simp at hx)
    simpa using this.trans hlen.symm
  · rw [htake]
    refine jsTrim_eq_self _ ?_ ?_
    · intro x hx
      rw [List.head?_cons] at hx
      cases hx
      exact scaleLetter_not_ws _ hc
    · intro x hx
      exact digit_not_ws x (hlast x hx)

/-- A match of the scale regex that fails on a line followed by more text
also fails on the line alone. -/
lemma scale_line_zero (L R : List Char)
    (h : scalePrefixLen (L ++ '\n' :: R) = 0) : scalePrefixLen L = 0 := by
  by_contra hne
  have hpos : 0 < scalePrefixLen L := Nat.pos_of_ne_zero hne
  obtain ⟨c, mods, ws, ds, rest, hcs, hlen, hc, hmods, hws, hws0, hds, hds0, hrest⟩ :=
    scale_structure L _ rfl hpos
  have heq : L ++ '\n' :: R = c :: (mods ++ ws ++ ds ++ (rest ++ '\n' :: R)) := by
    rw [hcs]
    simp [List.append_assoc]
  have hrest2 : ∀ x, (rest ++ '\n' :: R).head? = some x → x.isDigit = false := by
    intro x hx
    cases rest with
    | nil =>
        simp only [List.nil_append, List.head?_cons] at hx
        cases hx
        decide
    | cons r0 rs =>
        simp only [List.cons_append, List.head?_cons] at hx
        cases hx
        exact hrest x rfl
  have heval := scale_eval c mods ws ds (rest ++ '\n' :: R) hc hmods hws hws0 hds hds0 hrest2
  rw [heq, heval] at h
  omega

/-- A match of the scale regex on a line followed by more text that stays
inside the line (no newline in the matched prefix) is also a match on the
line alone, with the same length. -/
lemma scale_line_match (L R : List Char) (n : Nat)
    (h : scalePrefixLen (L ++ '\n' :: R) = n) (hpos : 0 < n)
    (hnl : '\n' ∉ (L ++ '\n' :: R).take n) :
    scalePrefixLen L = n ∧ n ≤ L.length := by
  obtain ⟨c, mods, ws, ds, rest, hcs, hlen, hc, hmods, hws, hws0, hds, hds0, hrest⟩ :=
    scale_structure (L ++ '\n' :: R) n h hpos
  have hn_le : n ≤ L.length := by
    by_contra hgt
    push_neg at hgt
    apply hnl
    rw [List.take_append_eq_append_take]
    refine List.mem_append.2 (Or.inr ?_)
    cases hk : n - L.length with
    | zero => omega
    | succ k => simp [List.take_succ_cons]
  have htake1 : (L ++ '\n' :: R).take n = L.take n :=
    List.take_append_of_le_length hn_le
  have htake2 : (L ++ '\n' :: R).take n = c :: (mods ++ ws ++ ds) := by
    rw [hcs, hlen]
    have h1 : 1 + mods.length + ws.length + ds.length =
        (mods.length + ws.length + ds.length) + 1 := by omega
    rw [h1, List.take_succ_cons]
    congr 1
    have h2 : mods ++ ws ++ ds ++ rest = (mods ++ ws ++ ds) ++ rest := by
      simp [List.append_assoc]
    rw [h2, List.take_left' (by simp only [List.length_append])]
  have hdrop1 : (L ++ '\n' :: R).drop n = L.drop n ++ '\n' :: R :=
    List.drop_append_of_le_length hn_le
  have hdrop2 : (L ++ '\n' :: R).drop n = rest := by
    rw [hcs, hlen]
    have h1 : 1 + mods.length + ws.length + ds.length =
        (mods.length + ws.length + ds.length) + 1 := by omega
    rw [h1, List.drop_succ_cons]
    have h2 : mods ++ ws ++ ds ++ rest = (mods ++ ws ++ ds) ++ rest := by
      simp [List.append_assoc]
    rw [h2, List.drop_left' (by simp only [List.length_append])]
  have hrest_eq : rest = L.drop n ++ '\n' :: R := by
    rw [← hdrop2, hdrop1]
  have hL : L = c :: (mods ++ ws ++ ds ++ L.drop n) := by
    conv_lhs => rw [← List.take_append_drop n L]
    rw [← htake1, htake2]
    simp [List.append_assoc]
  have hrest3 : ∀ x, (L.drop n).head? = some x → x.isDigit = false := by
    intro x hx
    apply hrest x
    rw [hrest_eq]
    cases hdn : L.drop n with
    | nil => rw [hdn] at hx; cases hx
    | cons y ys =>
        rw [hdn] at hx
        simp only [List.head?_cons] at hx
        cases hx
        simp
  have heval := scale_eval c mods ws ds (L.drop n) hc hmods hws hws0 hds hds0 hrest3
  refine ⟨?_, hn_le⟩
  calc scalePrefixLen L
      = scalePrefixLen (c :: (mods ++ ws ++ ds ++ L.drop n)) := by rw [← hL]
    _ = 1 + mods.length + ws.length + ds.length := heval
    _ = n := hlen.symm

lemma scaleScan_pos (cs : List Char) (h : 0 < scalePrefixLen cs) :
    scaleScan cs true =
      jsTrim (cs.take (scalePrefixLen cs)) ::
        scaleScan (cs.drop (scalePrefixLen cs)) false := by
  cases cs with
  | nil => simp [scalePrefixLen] at h
  | cons c rest => rw [scaleScan_cons_eq, if_pos ⟨rfl, h⟩]

lemma scaleScan_zero_cons (c : Char) (rest : List Char)
    (h : ¬ 0 < scalePrefixLen (c :: rest)) :
    scaleScan (c :: rest) true = scaleScan rest (c = '\n' || c = '\r') := by
  rw [scaleScan_cons_eq, if_neg (fun hc => h hc.2)]

lemma scaleScan_dead (L : List Char)
    (h : ∀ c ∈ L, (c = '\n' || c = '\r') = false) : scaleScan L false = [] := by
  induction L with
  | nil => simp [scaleScan, scaleScanAux]
  | cons c L1 ih =>
      rw [scaleScan_cons_eq, if_neg (by simp)]
      rw [h c (List.mem_cons_self c L1)]
      exact ih fun x hx => h x (List.mem_cons_of_mem c hx)

lemma scaleScan_skip (L : List Char) (rest : List Char)
    (h : ∀ c ∈ L, (c = '\n' || c = '\r') = false) :
    scaleScan (L ++ '\n' :: rest) false = scaleScan rest true := by
  induction L with
  | nil =>
      rw [List.nil_append, scaleScan_cons_eq, if_neg (by simp)]
      simp
  | cons c L1 ih =>
      rw [List.cons_append, scaleScan_cons_eq, if_neg (by simp)]
      rw [h c (List.mem_cons_self c L1)]
      exact ih fun x hx => h x (List.mem_cons_of_mem c hx)

lemma splitNL_single (L : List Char) (h : '\n' ∉ L) : splitNL L = [L] := by
  induction L with
  | nil => rfl
  | cons c L1 ih =>
      have hc : ¬ c = '\n' := fun hcc => h (by rw [hcc]; exact List.mem_cons_self _ _)
      have hrec := ih fun hx => h (List.mem_cons_of_mem c hx)
      simp only [splitNL, hrec]
      rw [if_neg hc]

lemma splitNL_append (L R : List Char) (h : '\n' ∉ L) :
    splitNL (L ++ '\n' :: R) = L :: splitNL R := by
  induction L with
  | nil => simp [splitNL]
  | cons c L1 ih =>
      have hc : ¬ c = '\n' := fun hcc => h (by rw [hcc]; exact List.mem_cons_self _ _)
      have hrec := ih fun hx => h (List.mem_cons_of_mem c hx)
      rw [List.cons_append]
      simp only [splitNL, hrec]
      rw [if_neg hc]

lemma dropWhile_head_false (p : Char → Bool) :
    ∀ (l : List Char) (c : Char) (rest : List Char),
      l.dropWhile p = c :: rest → p c = false := by
  intro l
  induction l with
  | nil => intro c rest h; simp at h
  | cons a as ih =>
      intro c rest h
      by_cases ha : p a = true
      · rw [List.dropWhile_cons, if_pos ha] at h
        exact ih c rest h
      · rw [List.dropWhile_cons, if_neg ha] at h
        cases h
        simpa using ha

/-- The per-line reading of `/^[A-F][+-]?\s+\d+/`: a line contributes its
matched prefix, trimmed, exactly when the pattern matches at the line
start. -/
def lineScale (l : List Char) : Option (List Char) :=
  if 0 < scalePrefixLen l then some (jsTrim (l.take (scalePrefixLen l))) else none

lemma scaleScan_lines : ∀ (N : Nat) (cs : List Char), cs.length ≤ N →
    '\r' ∉ cs → (∀ l ∈ scaleScan cs true, '\n' ∉ l) →
    scaleScan cs true = (splitNL cs).filterMap lineScale := by
  intro N
  induction N with
  | zero =>
      intro cs hlen hr hn
      have hnil : cs = [] := List.length_eq_zero.1 (Nat.le_zero.1 hlen)
      subst hnil
      simp [scaleScan, scaleScanAux, splitNL, lineScale, scalePrefixLen]
  | succ N ih =>
      intro cs hlen hr hn
      by_cases hnl : '\n' ∈ cs
      · -- first line `L`, separator, remainder `R`
        obtain ⟨c0, S1, hS⟩ : ∃ c0 S1,
            cs.dropWhile (fun c => c != '\n') = c0 :: S1 := by
          cases hS : cs.dropWhile (fun c => c != '\n') with
          | nil =>
              exfalso
              have hfull : cs.takeWhile (fun c => c != '\n') = cs := by
                conv_rhs => rw [← List.takeWhile_append_dropWhile (fun c => c != '\n') cs]
                rw [hS, List.append_nil]
              have := List.mem_takeWhile_imp (hfull.symm ▸ hnl)
              simp at this
          | cons c0 S1 => exact ⟨c0, S1, rfl⟩
        have hc0 : c0 = '\n' := by
          have := dropWhile_head_false (fun c => c != '\n') cs c0 S1 hS
          simpa using this
        subst hc0
        set L := cs.takeWhile (fun c => c != '\n') with hLdef
        have hcs : cs = L ++ '\n' :: S1 := by
          conv_lhs => rw [← List.takeWhile_append_dropWhile (fun c => c != '\n') cs]
          rw [hS]
        have hLnl : '\n' ∉ L := by
          intro hx
          have := List.mem_takeWhile_imp hx
          simp at this
        have hLmem : ∀ x ∈ L, x ∈ cs := by
          intro x hx
          rw [hcs]
          exact List.mem_append.2 (Or.inl hx)
        have hRmem : ∀ x ∈ S1, x ∈ cs := by
          intro x hx
          rw [hcs]
          exact List.mem_append.2 (Or.inr (List.mem_cons_of_mem _ hx))
        have hLflags : ∀ x ∈ L, (x = '\n' || x = '\r') = false := by
          intro x hx
          simp only [Bool.or_eq_false_iff, decide_eq_false_iff_not]
          exact ⟨fun hxx => hLnl (hxx ▸ hx), fun hxx => hr (hxx ▸ hLmem x hx)⟩
        have hRr : '\r' ∉ S1 := fun hx => hr (hRmem _ hx)
        have hRlen : S1.length ≤ N := by
          have : cs.length = L.length + 1 + S1.length := by
            rw [hcs]
            simp only [List.length_append, List.length_cons]
            omega
          omega
        rw [hcs, splitNL_append L S1 hLnl]
        by_cases hmatch : 0 < scalePrefixLen (L ++ '\n' :: S1)
        · obtain ⟨hlen_take, hfull_take, htrim_take⟩ :=
            scale_take_eval (L ++ '\n' :: S1) _ rfl hmatch
          have hpos_eq := scaleScan_pos (L ++ '\n' :: S1) hmatch
          have hhead_mem :
              jsTrim ((L ++ '\n' :: S1).take (scalePrefixLen (L ++ '\n' :: S1))) ∈
                scaleScan (L ++ '\n' :: S1) true := by
            rw [hpos_eq]
            exact List.mem_cons_self _ _
          have h1 := hn _ (by rw [hcs]; exact hhead_mem)
          rw [htrim_take] at h1
          obtain ⟨hlineL, hle⟩ := scale_line_match L S1 _ rfl hmatch h1
          have hdrop : (L ++ '\n' :: S1).drop (scalePrefixLen (L ++ '\n' :: S1)) =
              L.drop (scalePrefixLen (L ++ '\n' :: S1)) ++ '\n' :: S1 :=
            List.drop_append_of_le_length hle
          have hskip : scaleScan
              (L.drop (scalePrefixLen (L ++ '\n' :: S1)) ++ '\n' :: S1) false =
              scaleScan S1 true :=
            scaleScan_skip _ S1 (fun x hx => hLflags x (List.mem_of_mem_drop hx))
          have hLHS : scaleScan (L ++ '\n' :: S1) true =
              jsTrim ((L ++ '\n' :: S1).take (scalePrefixLen (L ++ '\n' :: S1))) ::
                scaleScan S1 true := by
            rw [hpos_eq, hdrop, hskip]
          have hRn : ∀ l ∈ scaleScan S1 true, '\n' ∉ l := by
            intro l hl
            apply hn
            rw [hcs, hLHS]
            exact List.mem_cons_of_mem _ hl
          have hIH := ih S1 hRlen hRr hRn
          rw [hLHS, hIH, List.filterMap_cons]
          have hlineL_val : lineScale L =
              some (jsTrim ((L ++ '\n' :: S1).take (scalePrefixLen (L ++ '\n' :: S1)))) := by
            unfold lineScale
            rw [hlineL, if_pos hmatch]
            congr 1
            rw [List.take_append_of_le_length hle]
          rw [hlineL_val]
        · have hzero : scalePrefixLen (L ++ '\n' :: S1) = 0 := by omega
          have hlineL_none : lineScale L = none := by
            unfold lineScale
            rw [scale_line_zero L S1 hzero, if_neg (by omega)]
          have hstep : scaleScan (L ++ '\n' :: S1) true = scaleScan S1 true := by
            cases hL : L with
            | nil =>
                rw [List.nil_append]
                rw [scaleScan_zero_cons _ _ (by rw [hL] at hmatch; simpa using hmatch)]
                simp
            | cons c1 L1 =>
                rw [List.cons_append]
                rw [scaleScan_zero_cons _ _
                  (by rw [hL] at hmatch; simpa using hmatch)]
                have hflag := hLflags c1 (by rw [hL]; exact List.mem_cons_self _ _)
                rw [hflag]
                exact scaleScan_skip L1 S1
                  (fun x hx => hLflags x (by rw [hL]; exact List.mem_cons_of_mem _ hx))
          have hRn : ∀ l ∈ scaleScan S1 true, '\n' ∉ l := by
            intro l hl
            apply hn
            rw [hcs, hstep]
            exact hl
          have hIH := ih S1 hRlen hRr hRn
          rw [hstep, hIH, List.filterMap_cons, hlineL_none]
      · -- `cs` is a single line
        rw [splitNL_single cs hnl]
        have hflags : ∀ x ∈ cs, (x = '\n' || x = '\r') = false := by
          intro x hx
          simp only [Bool.or_eq_false_iff, decide_eq_false_iff_not]
          exact ⟨fun hxx => hnl (hxx ▸ hx), fun hxx => hr (hxx ▸ hx)⟩
        by_cases hmatch : 0 < scalePrefixLen cs
        · obtain ⟨hlen_take, hfull_take, htrim_take⟩ :=
            scale_take_eval cs (scalePrefixLen cs) rfl hmatch
          rw [scaleScan_pos cs hmatch]
          have hdead : scaleScan (cs.drop (scalePrefixLen cs)) false = [] :=
            scaleScan_dead _ (fun x hx => hflags x (List.mem_of_mem_drop hx))
          rw [hdead]
          simp [lineScale, hmatch]
        · have hscan : scaleScan cs true = [] := by
            cases hc : cs with
            | nil => simp [scaleScan, scaleScanAux]
            | cons c1 rest1 =>
                rw [scaleScan_zero_cons _ _ (by rw [hc] at hmatch; exact hmatch)]
                have hflag := hflags c1 (by rw [hc]; exact List.mem_cons_self _ _)
                rw [hflag]
                exact scaleScan_dead rest1
                  (fun x hx => hflags x (by rw [hc]; exact List.mem_cons_of_mem _ hx))
          rw [hscan]
          simp [lineScale, hmatch]

lemma scaleScan_shape : ∀ (N : Nat) (cs : List Char), cs.length ≤ N →
    ∀ b l, l ∈ scaleScan cs b → 0 < l.length ∧ scalePrefixLen l = l.length := by
  intro N
  induction N with
  | zero =>
      intro cs hlen b l hl
      have hnil : cs = [] := List.length_eq_zero.1 (Nat.le_zero.1 hlen)
      subst hnil
      simp [scaleScan, scaleScanAux] at hl
  | succ N ih =>
      intro cs hlen b l hl
      cases cs with
      | nil => simp [scaleScan, scaleScanAux] at hl
      | cons c rest =>
          rw [scaleScan_cons_eq] at hl
          by_cases hcond : b = true ∧ 0 < scalePrefixLen (c :: rest)
          · rw [if_pos hcond] at hl
            rcases List.mem_cons.1 hl with h1 | h1
            · subst h1
              obtain ⟨hlen_take, hfull_take, htrim_take⟩ :=
                scale_take_eval (c :: rest) (scalePrefixLen (c :: rest)) rfl hcond.2
              rw [htrim_take]
              refine ⟨?_, ?_⟩
              · rw [hlen_take]
                exact hcond.2
              · rw [hfull_take, hlen_take]
            · have hrest : ((c :: rest).drop (scalePrefixLen (c :: rest))).length ≤ N := by
                have h2 := hcond.2
                simp only [List.length_cons] at hlen
                simp only [List.length_drop, List.length_cons]
                omega
              exact ih _ hrest _ l h1
          · rw [if_neg hcond] at hl
            have hrest : rest.length ≤ N := by
              simp only [List.length_cons] at hlen
              omega
            exact ih rest hrest _ l hl

/-- C6: with the weighting-table marker present, the retained weighting
lines are exactly the trimmed lines of the 1000-character window that
contain a percent sign, in original text order, and every retained
grading-scale line fully matches the pattern "capital letter A–F, optional
`+`/`-` modifier, whitespace, number"; on a scale window free of carriage
returns whose emitted matches stay within single lines, the scale output is
exactly the matched prefixes of the window's lines, in original order, with
all other lines discarded. -/
theorem grading_line_filters (t : List Char) (idx : Nat)
    (_h : firstIdx gwMarker t = some idx) :
    (∀ l, l ∈ weightLines t idx ↔
        ((∃ raw ∈ splitNL (weightWindow t idx), l = jsTrim raw) ∧
          l.contains '%' = true)) ∧
    List.Sublist (weightLines t idx) ((splitNL (weightWindow t idx)).map jsTrim) ∧
    (∀ l ∈ scaleLinesOf t idx, 0 < l.length ∧ scalePrefixLen l = l.length) ∧
    (∀ w, scaleWindowA t = some w → '\r' ∉ w →
      (∀ l ∈ scaleScan w true, '\n' ∉ l) →
      scaleScan w true = (splitNL w).filterMap lineScale) ∧
    (∀ w, scaleWindowB t idx = some w → '\r' ∉ w →
      (∀ l ∈ scaleScan w true, '\n' ∉ l) →
      scaleScan w true = (splitNL w).filterMap lineScale) := by
  refine ⟨?_, ?_, ?_, ?_, ?_⟩
  · intro l
    unfold weightLines
    rw [List.mem_filter, List.mem_map]
    constructor
    · rintro ⟨⟨raw, hraw, hr2⟩, hp⟩
      exact ⟨⟨raw, hraw, hr2.symm⟩, hp⟩
    · rintro ⟨⟨raw, hraw, hr2⟩, hp⟩
      exact ⟨⟨raw, hraw, hr2.symm⟩, hp⟩
  · unfold weightLines
    exact List.filter_sublist _
  · intro l hl
    unfold scaleLinesOf at hl
    cases hA : scaleWindowA t with
    | some w =>
        rw [hA] at hl
        by_cases hempty : (scaleScan w true).isEmpty = true
        · rw [if_pos hempty] at hl
          cases hB : scaleWindowB t idx with
          | some w2 =>
              rw [hB] at hl
              exact scaleScan_shape w2.length w2 le_rfl true l hl
          | none =>
              rw [hB] at hl
              simp at hl
        · rw [if_neg hempty] at hl
          exact scaleScan_shape w.length w le_rfl true l hl
    | none =>
        rw [hA] at hl
        rw [if_pos (by rfl)] at hl
        cases hB : scaleWindowB t idx with
        | some w2 =>
            rw [hB] at hl
            exact scaleScan_shape w2.length w2 le_rfl true l hl
        | none =>
            rw [hB] at hl
            simp at hl
  · intro w _ hr hn
    exact scaleScan_lines w.length w le_rfl hr hn
  · intro w _ hr hn
    exact scaleScan_lines w.length w le_rfl hr hn

theorem grading_line_filters_witness :
    firstIdx gwMarker
        ("Grade Weighting\nHW 50%\ngrade letter\nA 94\nrandom prose\nB+ 87".toList) =
      some 0 ∧
    (∀ l ∈ scaleLinesOf
        ("Grade Weighting\nHW 50%\ngrade letter\nA 94\nrandom prose\nB+ 87".toList) 0,
      0 < l.length ∧ scalePrefixLen l = l.length) ∧
    scaleScan ("grade letter\nA 94\nrandom prose\nB+ 87".toList) true =
      (splitNL ("grade letter\nA 94\nrandom prose\nB+ 87".toList)).filterMap lineScale ∧
    extractGradingPolicy
        ("Grade Weighting\nHW 50%\ngrade letter\nA 94\nrandom prose\nB+ 87".toList) =
      "HW 50%\n\nGrading Scale:\nA 94\nB+ 87".toList := by
  refine ⟨by decide, ?_, ?_, by decide⟩
  · exact (grading_line_filters
      ("Grade Weighting\nHW 50%\ngrade letter\nA 94\nrandom prose\nB+ 87".toList) 0
      (by decide)).2.2.1
  · exact (grading_line_filters
      ("Grade Weighting\nHW 50%\ngrade letter\nA 94\nrandom prose\nB+ 87".toList) 0
      (by decide)).2.2.2.1 ("grade letter\nA 94\nrandom prose\nB+ 87".toList)
      (by decide) (by decide) (by decide)

end PdfTester
